import Mathlib

/-!
AutoKaraoke-Refactored: verification of the alignment core.

Shallow embedding of the lyric-to-speech alignment engine of the
AutoKaraoke-Refactored repository (`src/core/lrc_aligner.py`,
`src/core/lrc_parser.py`, `src/utils/time_utils.py`, `src/config.py`).

Modelling conventions:
* Python floats are modelled as exact rationals (`ℚ`); the claims under
  study are about the algorithmic structure (ordering, boundaries,
  interpolation formulas), not about binary floating-point rounding.
* Python strings are modelled as `List Char`; `str.strip`, regex matching
  and `re.sub` are implemented faithfully for the concrete regular
  expressions appearing in the source (`time_tag_pattern`,
  `remove_tags_pattern`, `remove_html_pattern`, `credits_pattern`,
  tokenizer pattern).  Python's `\w` (unicode word character) is modelled
  as ASCII alphanumeric / underscore together with the CJK ranges the
  source lists explicitly; no claim depends on other unicode letters.
* Python lists mutated in place become explicit lists threaded through
  recursions; `enumerate`-style loops become `mapIdxFrom`.
* Python code that can raise (`line_tokens[-1]` on an empty list) is
  modelled with `Option`: `none` is an uncaught exception.
* `difflib.SequenceMatcher` is Python standard library, not repository
  code; its opcode output is taken as an input (`List Opcode`) of the
  alignment run, constrained where needed by the well-formedness
  guarantees `difflib` documents (sorted contiguous spans, equal spans of
  equal length on both sides, spans inside both sequences).
-/

namespace AutoK

/-- `MIN_DURATION = 0.06` from `src/config.py` line 28. -/
def MIN_DURATION : ℚ := 3/50

/-- A reference-side token, as built by `LrcAligner._tokenize_line` and
enriched by `_prepare_user_sequence` (`line_idx`, `clean_text`). -/
structure UToken where
  text : List Char
  pre : List Char
  time : Option ℚ
  endIdx : Nat
  lineIdx : Nat
  cleanText : List Char
deriving DecidableEq

/-- A recognized word from the speech result: `word`, `start`, `end`. -/
structure AIWord where
  word : List Char
  start : ℚ
  stop : ℚ
deriving DecidableEq

/-- One character sliced from an `AIWord` by `_prepare_ai_sequence`. -/
structure AIChar where
  text : List Char
  start : ℚ
deriving DecidableEq

/-- `enumerate`-style map carrying the running index, used to model the
Python `for k, t in enumerate(line_tokens)` loops transparently. -/
def mapIdxFrom (f : Nat → α → β) : Nat → List α → List β
  | _, [] => []
  | n, a :: l => f n a :: mapIdxFrom f (n+1) l

/-- The time stored at position `m` of a token list (`none` when the index
is out of range or the token has no time). -/
def timeAt (l : List UToken) (m : Nat) : Option ℚ :=
  (l.get? m).bind (·.time)

/-! ## Character classes (tokenizer and normalizer) -/

/-- CJK ranges from the source regexes:
`一-龥`, `぀-ゟ`, `゠-ヿ`. -/
def isCjk (c : Char) : Bool :=
  (0x4e00 ≤ c.toNat ∧ c.toNat ≤ 0x9fa5) ∨
  (0x3040 ≤ c.toNat ∧ c.toNat ≤ 0x309f) ∨
  (0x30a0 ≤ c.toNat ∧ c.toNat ≤ 0x30ff)

/-- The Latin-token alternative of the tokenizer regex `[a-zA-Z0-9']`. -/
def isLatinTok (c : Char) : Bool :=
  (97 ≤ c.toNat ∧ c.toNat ≤ 122) ∨ (65 ≤ c.toNat ∧ c.toNat ≤ 90) ∨
  (48 ≤ c.toNat ∧ c.toNat ≤ 57) ∨ c.toNat = 39

/-- Python `\w` as used by `_clean_token`
(`[^\w一-龥぀-ゟ゠-ヿ]` is removed): modelled as
ASCII alphanumeric or underscore or a CJK character (see file header). -/
def isWordChar (c : Char) : Bool :=
  (97 ≤ c.toNat ∧ c.toNat ≤ 122) ∨ (65 ≤ c.toNat ∧ c.toNat ≤ 90) ∨
  (48 ≤ c.toNat ∧ c.toNat ≤ 57) ∨ c.toNat = 95 ∨ isCjk c

/-- `LrcAligner._clean_token`: strip non-word characters, lower-case. -/
def cleanToken (t : List Char) : List Char :=
  (t.filter isWordChar).map Char.toLower

/-! ## `LrcAligner._tokenize_line`

`re.finditer(r"([a-zA-Z0-9']+|[CJK])", line)`: a maximal run of Latin
characters, or a single CJK character; the characters between matches are
the `pre` of the following token; `end_idx` is `match.end()` (character
position just past the token). -/

/-- The scanner loop.  The first argument is fuel for structural
recursion; every step consumes at least one input character, so with fuel
initialised to the line length the `0`-fuel fallback is unreachable. -/
def tokLoop : Nat → Nat → List Char → List Char → List UToken
  | _, _, _, [] => []
  | 0, _, _, _ => []
  | fuel+1, pos, preAcc, c :: rest =>
    if isCjk c then
      ⟨[c], (preAcc.reverse).filter (fun x => x.toNat ≠ 10), none, pos+1, 0, []⟩ ::
        tokLoop fuel (pos+1) [] rest
    else if isLatinTok c then
      let run := c :: rest.takeWhile isLatinTok
      ⟨run, (preAcc.reverse).filter (fun x => x.toNat ≠ 10), none, pos + run.length, 0, []⟩ ::
        tokLoop fuel (pos + run.length) [] (rest.dropWhile isLatinTok)
    else
      tokLoop fuel (pos+1) (c :: preAcc) rest

def tokenizeLine (line : List Char) : List UToken :=
  tokLoop line.length 0 [] line

/-- `LrcAligner._prepare_user_sequence`: tokenize each reference line,
record the owning line index and the normalized comparison text. -/
def prepareUserSequence (lines : List (List Char)) : List UToken :=
  (mapIdxFrom (fun i line =>
    (tokenizeLine line).map
      (fun t => { t with lineIdx := i, cleanText := cleanToken t.text })) 0 lines).join

/-- `LrcAligner._prepare_ai_sequence`: slice each recognized word into
characters of its cleaned text, spreading the word's duration evenly. -/
def prepareAiSequence (ws : List AIWord) : List AIChar :=
  (ws.map (fun w =>
    let ct := cleanToken w.word
    if ct = [] then []
    else
      let cd := (w.stop - w.start) / (ct.length : ℚ)
      mapIdxFrom (fun i c => ⟨[c], w.start + (i : ℚ) * cd⟩) 0 ct)).join

/-! ## The sequence-alignment backfill loop (`LrcAligner.run`, step 6)

`difflib.SequenceMatcher.get_opcodes()` yields `(tag, i1, i2, j1, j2)`
spans; only `equal` spans assign times:
`matched_time = ai[j].start; if matched_time < last: matched_time = last`.
`replace`, `delete` and `insert` spans assign nothing. -/

inductive OpTag | equal | replace | delete | insert
deriving DecidableEq

structure Opcode where
  tag : OpTag
  i1 : Nat
  i2 : Nat
  j1 : Nat
  j2 : Nat
deriving DecidableEq

/-- The derived start time of the AI character at position `j` (0 when
out of range; `difflib` guarantees in-range indices, enforced by
`OpsWF`). -/
def aiStartD (ai : List AIChar) (j : Nat) : ℚ := (ai.getD j ⟨[], 0⟩).start

/-- Set the time of the token at position `i` (identity out of range). -/
def setTokTime : List UToken → Nat → ℚ → List UToken
  | [], _, _ => []
  | t :: r, 0, v => { t with time := some v } :: r
  | t :: r, n+1, v => t :: setTokTime r n v

/-- The inner loop of an `equal` opcode: assign `max (ai start) last`
to `n` consecutive user tokens starting at `i`, matched to AI characters
starting at `j`, threading `last_valid_time`. -/
def assignEqual (ai : List AIChar) : Nat → Nat → Nat → List UToken × ℚ → List UToken × ℚ
  | 0, _, _, st => st
  | n+1, i, j, (us, last) =>
    let mt := max (aiStartD ai j) last
    assignEqual ai n (i+1) (j+1) (setTokTime us i mt, mt)

/-- The opcode loop of `LrcAligner.run` (lines 69–93), starting from
`last_valid_time = 0.0`. -/
def applyOpcodes (ai : List AIChar) : List Opcode → List UToken × ℚ → List UToken × ℚ
  | [], st => st
  | op :: rest, st =>
    applyOpcodes ai rest
      (if op.tag = OpTag.equal then assignEqual ai (op.i2 - op.i1) op.i1 op.j1 st else st)

/-- The times assigned inside one `equal` span: each is the AI start
clamped from below by the previous assigned value (`last` before the
span). -/
def chainVal (ai : List AIChar) (j : Nat) (last : ℚ) : Nat → ℚ
  | 0 => max (aiStartD ai j) last
  | d+1 => max (aiStartD ai (j+d+1)) (chainVal ai j last d)

/-- Reference token position `k` lies inside some `equal` opcode span. -/
def inEqualSpan (ops : List Opcode) (k : Nat) : Bool :=
  ops.any (fun op => decide (op.tag = OpTag.equal ∧ op.i1 ≤ k ∧ k < op.i2))

/-- The well-formedness `difflib.SequenceMatcher.get_opcodes()`
guarantees: the `i`-spans are contiguous from the given position and end
inside the user sequence, and each `equal` span has the same length on
both sides and stays inside the AI sequence. -/
def OpsWF (ulen alen : Nat) : Nat → List Opcode → Prop
  | _, [] => True
  | cur, op :: rest =>
    op.i1 = cur ∧ cur ≤ op.i2 ∧ op.i2 ≤ ulen ∧
    (op.tag = OpTag.equal → op.i2 - op.i1 = op.j2 - op.j1 ∧ op.j2 ≤ alen) ∧
    OpsWF ulen alen op.i2 rest

/-- The assigned times of a token list, in token order. -/
def times (l : List UToken) : List ℚ := l.filterMap (·.time)

/-- The latest time assigned at a position strictly before `m` (0 when no
earlier position is assigned), in token order. -/
def latestBefore (l : List UToken) (m : Nat) : ℚ :=
  ((l.take m).filterMap (·.time)).getLast?.getD 0

/-! ## Reconciler step 1: `LrcAligner._clean_hallucinations`

For each position `k` (the loop only touches index `k` itself, and scans
strictly later, never-yet-modified indices for the next known time, so the
imperative loop is the following structural recursion): if token `k` has a
time and the next known time after it exceeds it by more than 3 s, the
time at `k` is discarded. -/

/-- First known time of a token list (the inner `for j in range(k+1, count)`
scan). -/
def nextKnown : List UToken → Option ℚ
  | [] => none
  | t :: r => match t.time with
    | some v => some v
    | none => nextKnown r

def cleanHall : List UToken → List UToken
  | [] => []
  | t :: rest =>
    (match t.time, nextKnown rest with
      | some v1, some v2 => if v2 - v1 > 3 then { t with time := none } else t
      | _, _ => t) :: cleanHall rest

/-! ## Reconciler step 2: `LrcAligner._interpolate_timestamps`

Holes are filled left to right; when a hole at `k` is processed every
index `< k` already carries a time, so the backward scan for the previous
anchor always finds the immediately preceding token's (possibly freshly
interpolated) time, or the previous line's cursor at `k = 0`; the forward
scan sees the not-yet-processed original suffix. -/

/-- Forward scan: number of holes before the next known time, and that
time (`steps_to_next`, `next_time`). -/
def nextStepsTime : List UToken → Option (Nat × ℚ)
  | [] => none
  | t :: r => match t.time with
    | some v => some (0, v)
    | none => (nextStepsTime r).map (fun p => (p.1 + 1, p.2))

/-- The value assigned to one hole, from the previous anchor and the
forward-scan result (lines 541–557 of `lrc_aligner.py`). -/
def interpValue (prev : ℚ) : Option (Nat × ℚ) → ℚ
  | some (steps, nxt) =>
    let gap := nxt - prev
    if gap > 5/2 then
      max (prev + 1/10) (nxt - ((steps : ℚ) + 1) * (3/10))
    else
      prev + max MIN_DURATION (min (gap / ((steps : ℚ) + 2)) (2/5))
  | none => prev + 1/4

def interp (prevEnd : ℚ) : List UToken → List UToken
  | [] => []
  | t :: rest =>
    match t.time with
    | some v => t :: interp v rest
    | none =>
      let v := interpValue prevEnd (nextStepsTime rest)
      { t with time := some v } :: interp v rest

/-! ## Reconciler step 3: force calibration (`run` lines 127–159)

Executed only when `enable_force_calibration` and the line has a positive
original timestamp.  Returns the updated tokens, the updated
`current_last_time` and the `is_force_calibrated` flag; `none` models the
uncaught `IndexError` of `line_tokens[-1]` on an empty list (line 138). -/

def forceCalibStep (originalTs : ℚ) (toks : List UToken) (cl : ℚ) :
    Option (List UToken × ℚ × Bool) :=
  match toks.filterMap (·.time) with
  | [] =>
    match toks with
    | [] => none
    | _ :: _ =>
      let t3 := mapIdxFrom (fun k t => { t with time := some (originalTs + (k : ℚ) * (1/4)) }) 0 toks
      some (t3, originalTs + ((toks.length - 1 : Nat) : ℚ) * (1/4), true)
  | v0 :: _ =>
    if |v0 - originalTs| > 3/2 then
      let corr := originalTs - v0
      let t3 := toks.map (fun t => { t with time := t.time.map (· + corr) })
      let cl' := match t3.getLast? with
        | some tok => match tok.time with
          | some v => v
          | none => cl
        | none => cl
      some (t3, cl', true)
    else
      some (toks, cl, false)

/-! ## Reconciler step 4: overlap pre-check (`run` lines 170–191)

Only when average distribution is disabled and a next-line anchor exists.
Note the Python truthiness tests: `if last_token['time'] and ...` and
`line_tokens[0]['time'] if line_tokens[0]['time'] else original_ts` treat
a time of exactly `0.0` like `None`. -/

def overlapCheck (avgDist : Bool) (nextLineStart : Option ℚ) (originalTs : ℚ)
    (toks : List UToken) (cl : ℚ) (isFC : Bool) :
    Option (List UToken × ℚ × Bool) :=
  match nextLineStart with
  | none => some (toks, cl, isFC)
  | some nls =>
    if avgDist then some (toks, cl, isFC)
    else
      match toks.getLast? with
      | none => none
      | some lt =>
        let trig : Bool := match lt.time with
          | some t => decide (t ≠ 0 ∧ t > nls - 1/10)
          | none => false
        if trig then
          let startTime := match toks.head? with
            | some h => match h.time with
              | some s => if s = 0 then originalTs else s
              | none => originalTs
            | none => originalTs
          let targetEnd0 := nls - 1/10
          let targetEnd := if targetEnd0 ≤ startTime then startTime + 1/10 else targetEnd0
          let step := (targetEnd - startTime) / (toks.length : ℚ)
          let t3 := mapIdxFrom (fun k t => { t with time := some (startTime + (k : ℚ) * step) }) 0 toks
          some (t3, startTime + ((toks.length - 1 : Nat) : ℚ) * step, true)
        else some (toks, cl, isFC)

/-! ## Reconciler step 5: average distribution (`run` lines 194–243)

Only when the line was force-calibrated and `enable_avg_distribution`. -/

def avgDistribute (nextLineStart : Option ℚ) (originalTs : ℚ)
    (toks : List UToken) (cl : ℚ) : List UToken × ℚ :=
  if toks.length = 0 then (toks, cl)
  else
    let startTime := originalTs
    let count : ℚ := (toks.length : ℚ)
    let targetEnd1 := match nextLineStart with
      | some nls =>
        let lim := nls - 1/10
        if lim - startTime < 1/5 then startTime + count * (1/4) else lim
      | none => startTime + count * (3/10)
    let targetEnd := match toks.getLast? with
      | some lt =>
        match lt.time with
        | some cse =>
          if cse ≠ 0 ∧ (cse - startTime) > count * (1/2) then
            let pot := max targetEnd1 cse
            match nextLineStart with
            | some nls => if pot > nls - 1/10 then nls - 1/10 else pot
            | none => pot
          else targetEnd1
        | none => targetEnd1
      | none => targetEnd1
    let duration := max (1/5) (targetEnd - startTime)
    let step := duration / count
    (mapIdxFrom (fun k t => { t with time := some (startTime + (k : ℚ) * step) }) 0 toks,
     startTime + ((toks.length - 1 : Nat) : ℚ) * step)

/-! ## Reconciler step 6: final hard boundary check (`run` lines 245–294)

Applied whenever the next line has a positive original timestamp,
independently of all flags. -/

/-- The first token position carrying a time, with that time. -/
def firstSomeIdx : List UToken → Option (Nat × ℚ)
  | [] => none
  | t :: r =>
    match t.time with
    | some v => some (0, v)
    | none => (firstSomeIdx r).map (fun p => (p.1 + 1, p.2))

/-- The last token position carrying a time, with that time. -/
def lastSomeIdx : List UToken → Option (Nat × ℚ)
  | [] => none
  | t :: r =>
    match lastSomeIdx r with
    | some p => some (p.1 + 1, p.2)
    | none => match t.time with
      | some v => some (0, v)
      | none => none

def hardCheckUpd (nextTs : ℚ) (toks : List UToken) (cl : ℚ) : List UToken × ℚ :=
  let hardLimit := nextTs - 1/20
  match lastSomeIdx toks with
  | none => (toks, cl)
  | some (lastIdx, lastT) =>
    if lastT > hardLimit then
      let s := (firstSomeIdx toks).getD (0, 0)
      let startT := if s.2 ≥ hardLimit then max 0 (hardLimit - 1/5) else s.2
      let duration0 := hardLimit - startT
      let duration := if duration0 < 1/10 then 1/10 else duration0
      let count := lastIdx - s.1 + 1
      let step := duration / (count : ℚ)
      let t3 := mapIdxFrom
        (fun idx t =>
          if s.1 ≤ idx ∧ idx < s.1 + count then
            { t with time := some (startT + ((idx - s.1 : Nat) : ℚ) * step) }
          else t) 0 toks
      (t3, startT + ((count - 1 : Nat) : ℚ) * step)
    else (toks, cl)

/-! ## Time formatting (`src/utils/time_utils.py`, `format_time`)

`mm:ss.fff`, zero-padded, truncated (floor for non-negative values), an
offset added first and a floor of zero applied. -/

/-- Python float `%` for a positive modulus. -/
def pyMod (a b : ℚ) : ℚ := a - b * (⌊a / b⌋ : ℤ)

/-- Decimal digits, zero-padded on the left to width `w`
(Python `f"{n:0wd}"`; wider numbers keep all their digits). -/
def padNat (w n : Nat) : List Char :=
  let ds := Nat.toDigits 10 n
  List.replicate (w - ds.length) '0' ++ ds

def formatTime (seconds offset : ℚ) : List Char :=
  let f := max 0 (seconds + offset)
  let m := (⌊f / 60⌋ : ℤ).toNat
  let s := (⌊pyMod f 60⌋ : ℤ).toNat
  let ms := (⌊pyMod f 1 * 1000⌋ : ℤ).toNat
  padNat 2 m ++ ':' :: padNat 2 s ++ '.' :: padNat 3 ms

/-! ## The Formatter: `LrcAligner._construct_line_string`

Walks the token list with a per-line cursor (initialised from the
`last_valid_time` argument, which `run` passes as `0.0`), bumping any
non-`None` time that is not strictly greater than the cursor to
`cursor + MIN_DURATION`, writing the corrected time back, and rebuilding
the line text with a `[mm:ss.fff]` tag before each token (the first
token's leading punctuation, when non-blank, is hoisted before the tag).
The trailing substring after the last token is appended verbatim. -/

/-- Python `str.isspace` / `str.strip` whitespace, ASCII part
(claims do not depend on exotic unicode spaces). -/
def pyIsSpace (c : Char) : Bool :=
  c.toNat = 32 ∨ c.toNat = 9 ∨ c.toNat = 10 ∨ c.toNat = 13 ∨ c.toNat = 11 ∨ c.toNat = 12

def clGo (offset : ℚ) : ℚ → Bool → List UToken → List Char × List UToken
  | _, _, [] => ([], [])
  | cursor, isFirst, tok :: rest =>
    let t' : Option ℚ := tok.time.map (fun t => if t ≤ cursor then cursor + MIN_DURATION else t)
    let cursor' := t'.getD cursor
    let tsStr := match t' with
      | some v => formatTime v offset
      | none => ['0','0',':','0','0','.','0','0']
    let tag := '[' :: (tsStr ++ [']'])
    let piece :=
      if isFirst ∧ (tok.pre.any (fun c => ¬ pyIsSpace c)) then tag ++ tok.pre ++ tok.text
      else tok.pre ++ tag ++ tok.text
    let res := clGo offset cursor' false rest
    (piece ++ res.1, { tok with time := t' } :: res.2)

def constructLine (offset lastValid : ℚ) (toks : List UToken) (orig : List Char) :
    List Char × Option ℚ × List UToken :=
  match toks with
  | [] => (orig, none, [])
  | _ :: _ =>
    let r := clGo offset lastValid true toks
    let effStart := match r.2.head? with
      | some h => h.time
      | none => none
    let tail := match toks.getLast? with
      | some lt => orig.drop lt.endIdx
      | none => []
    (r.1 ++ tail, effStart, r.2)

/-! ## `src/utils/time_utils.py`: `parse_time_tag`

`tag.strip("[]")`, split on `':'`; exactly two parts or `-1`;
`int(parts[0])`; `float(parts[1].replace(':', '.'))`;
`max(0, int((minutes * 60 + seconds) * 1000))`; any conversion error
gives `-1`. -/

def charIsDigit (c : Char) : Bool := 48 ≤ c.toNat ∧ c.toNat ≤ 57

def digitsToNat (ds : List Char) : Nat :=
  ds.foldl (fun acc c => 10 * acc + (c.toNat - 48)) 0

/-- Python `int(s)` on the strings reachable here: an optional sign
followed by at least one digit (otherwise `ValueError`). -/
def pyInt? (l : List Char) : Option ℤ :=
  match l with
  | c :: rest =>
    if c.toNat = 45 then
      if rest ≠ [] ∧ rest.all charIsDigit then some (-(digitsToNat rest : ℤ)) else none
    else if c.toNat = 43 then
      if rest ≠ [] ∧ rest.all charIsDigit then some (digitsToNat rest : ℤ) else none
    else if l.all charIsDigit then some (digitsToNat l : ℤ) else none
  | [] => none

/-- Python `float(s)` on the strings reachable here: digits with at most
one decimal point, not both sides empty (otherwise `ValueError`). -/
def pyFloat? (l : List Char) : Option ℚ :=
  let core := fun (m : List Char) =>
    match m.splitOn '.' with
    | [ds] => if ds ≠ [] ∧ ds.all charIsDigit then some ((digitsToNat ds : ℚ)) else none
    | [ds1, ds2] =>
      if (ds1 ≠ [] ∨ ds2 ≠ []) ∧ ds1.all charIsDigit ∧ ds2.all charIsDigit then
        some ((digitsToNat ds1 : ℚ) + (digitsToNat ds2 : ℚ) / (10 ^ ds2.length : ℚ))
      else none
    | _ => none
  match l with
  | c :: rest =>
    if c.toNat = 45 then (core rest).map Neg.neg
    else if c.toNat = 43 then core rest
    else core l
  | [] => none

/-- Python `int(x)` truncation toward zero on a rational. -/
def pyTrunc (q : ℚ) : ℤ := if q ≥ 0 then ⌊q⌋ else -⌊-q⌋

/-- `str.strip("[]")`. -/
def stripBrackets (l : List Char) : List Char :=
  let f := fun (c : Char) => c.toNat = 91 ∨ c.toNat = 93
  ((l.dropWhile f).reverse.dropWhile f).reverse

/-- `str.split(':')` (keeps empty parts). -/
def splitColon (l : List Char) : List (List Char) := l.splitOn ':'

def parse_time_tag (tag : List Char) : ℤ :=
  if tag = [] then -1
  else
    let clean := stripBrackets tag
    let parts := splitColon clean
    if parts.length ≠ 2 then -1
    else
      match pyInt? (parts.getD 0 []),
            pyFloat? ((parts.getD 1 []).map (fun c => if c.toNat = 58 then '.' else c)) with
      | some m, some s => max 0 (pyTrunc (((m : ℚ) * 60 + s) * 1000))
      | _, _ => -1

/-! ## `src/core/lrc_parser.py`: regexes -/

/-- Length of the tail of a time tag after the opening `[`, when the
pattern `\[\d{1,2}:\d{1,2}(?:[.:]\d{1,3})?\]` matches there.  Greedy
digit runs with regex backtracking collapse to: a digit run longer than
the quantifier bound can never match (the character after a shortened run
is still a digit, never `:` `.` `]`). -/
def tagTailLen (r : List Char) : Option Nat :=
  let d1 := r.takeWhile charIsDigit
  if d1.length = 0 ∨ d1.length > 2 then none
  else
    match r.drop d1.length with
    | c :: r2 =>
      if c.toNat ≠ 58 then none
      else
        let d2 := r2.takeWhile charIsDigit
        if d2.length = 0 ∨ d2.length > 2 then none
        else
          match r2.drop d2.length with
          | c2 :: r3 =>
            if c2.toNat = 93 then some (d1.length + 1 + d2.length + 1)
            else if c2.toNat = 46 ∨ c2.toNat = 58 then
              let d3 := r3.takeWhile charIsDigit
              if d3.length = 0 ∨ d3.length > 3 then none
              else
                match r3.drop d3.length with
                | c3 :: _ =>
                  if c3.toNat = 93 then
                    some (d1.length + 1 + d2.length + 1 + 1 + d3.length)
                  else none
                | [] => none
            else none
          | [] => none
    | [] => none

/-- `tag_content_pattern.match(line)`: the leading time tag (with its
brackets) and the rest of the line, or `none`. -/
def matchTagSplit (l : List Char) : Option (List Char × List Char) :=
  match l with
  | c :: r =>
    if c.toNat = 91 then
      (tagTailLen r).map (fun n => ('[' :: r.take n, r.drop n))
    else none
  | [] => none

/-- `remove_tags_pattern.sub('', s)`: delete every occurrence of the time
tag pattern, scanning left to right (non-overlapping, like `re.sub`).
Fuel-structured recursion: every step consumes at least one character, so
fuel = input length (see `removeTags`) makes the `0` case unreachable. -/
def removeTagsF : Nat → List Char → List Char
  | _, [] => []
  | 0, l => l
  | fuel+1, c :: rest =>
    if c.toNat = 91 then
      match tagTailLen rest with
      | some n => removeTagsF fuel (rest.drop n)
      | none => c :: removeTagsF fuel rest
    else c :: removeTagsF fuel rest

def removeTags (l : List Char) : List Char := removeTagsF l.length l

/-- `remove_html_pattern.sub('', s)` with pattern `<.*?>`: at a `<`,
remove up to the nearest following `>` (non-greedy); a `<` with no later
`>` stays.  Fuel-structured like `removeTagsF`. -/
def removeHtmlF : Nat → List Char → List Char
  | _, [] => []
  | 0, l => l
  | fuel+1, c :: rest =>
    if c.toNat = 60 then
      match rest.findIdx? (fun x => x.toNat = 62) with
      | some k => removeHtmlF fuel (rest.drop (k+1))
      | none => c :: removeHtmlF fuel rest
    else c :: removeHtmlF fuel rest

def removeHtml (l : List Char) : List Char := removeHtmlF l.length l

/-- `str.strip()` with the ASCII whitespace set. -/
def pyStrip (l : List Char) : List Char :=
  ((l.dropWhile pyIsSpace).reverse.dropWhile pyIsSpace).reverse

/-- The single-character credit prefixes of `credits_pattern`. -/
def cjkCredits : List Char :=
  "作编词曲演唱混录母制监统出绘调和吉贝鼓弦管".toList

/-- The three-letter credit prefixes of `credits_pattern` (matched
case-insensitively). -/
def latinCredits : List (List Char) :=
  ["Lyr", "Com", "Arr", "Sin", "Voc", "Mix", "Mas", "Pro", "Art", "Cov",
   "Gui", "Bas", "Dru", "Str"].map String.toList

/-- `credits_pattern.match(text)` as a boolean: one of the listed
prefixes, then `.{0,40}`, then `[:：]`, whitespace or `-`.  With
backtracking this is: the separator occurs within the 41 characters
following the prefix. -/
def creditsMatch (t : List Char) : Bool :=
  let sep := fun (c : Char) => c.toNat = 58 ∨ c = '：' ∨ c.toNat = 45 ∨ pyIsSpace c
  let pfxLen : Option Nat :=
    match t with
    | [] => none
    | c :: _ =>
      if c ∈ cjkCredits then some 1
      else if latinCredits.any (fun p => (t.take 3).map Char.toLower = p.map Char.toLower) then
        some 3
      else none
  match pfxLen with
  | none => false
  | some n => ((t.drop n).take 41).any sep

/-! ## `LrcParser.parse`

State of a parser instance.  Note that `parse` re-initialises `headers`,
`lines_text` and `translations` but **not** `lines_timestamps`
(`lrc_parser.py` lines 27–29); the embedding reproduces this.
`current_index` always equals `len(lines_text) - 1`, so the check
`current_index >= 0` is `lines_text ≠ []` and the translation key is
`lines_text.length - 1`. -/

structure PState where
  headers : List (List Char)
  linesText : List (List Char)
  translations : List (Nat × List Char)
  linesTimestamps : List ℚ
deriving DecidableEq

def initPState : PState := ⟨[], [], [], []⟩

/-- Split on `'\n'` (`str.splitlines` for the inputs considered, which
contain no trailing newline and no other line separators). -/
def splitNl (l : List Char) : List (List Char) :=
  match l.splitOn '\n' with
  | ls => ls

/-- The per-line step of `LrcParser.parse` (loop body, lines 37–87).
The extra component is `last_time_tag` (`none` before any lyric line). -/
def parseLine (st : PState) (lastTag : Option (List Char)) (raw : List Char) :
    PState × Option (List Char) :=
  let line := pyStrip raw
  if line = [] then (st, lastTag)
  else if line.head? = some '[' ∧ (matchTagSplit line).isNone then
    ({ st with headers := st.headers ++ [line] }, lastTag)
  else
    let tagText : List Char × List Char :=
      match matchTagSplit line with
      | some (tag, rest) =>
        (tag, pyStrip (removeHtml (removeTags (pyStrip rest))))
      | none => ([], pyStrip (removeHtml (removeTags line)))
    let timeTag := tagText.1
    let textOnly := tagText.2
    if textOnly = [] then (st, lastTag)
    else if creditsMatch textOnly then
      ({ st with headers := st.headers ++ [line] }, lastTag)
    else if timeTag ≠ [] ∧ some timeTag = lastTag ∧ st.linesText ≠ [] then
      ({ st with translations := st.translations ++ [(st.linesText.length - 1, textOnly)] },
       lastTag)
    else
      let tsVal : ℚ := if timeTag ≠ [] then ((parse_time_tag timeTag : ℚ) / 1000) else -1
      ({ st with linesText := st.linesText ++ [textOnly],
                 linesTimestamps := st.linesTimestamps ++ [tsVal] },
       some timeTag)

def parseLoop : PState → Option (List Char) → List (List Char) → PState
  | st, _, [] => st
  | st, lastTag, l :: ls =>
    let r := parseLine st lastTag l
    parseLoop r.1 r.2 ls

/-- `LrcParser.parse(content, ext)` (the BOM strip. the format hint is
unused by the logic).  `lines_timestamps` is deliberately NOT reset. -/
def parse (st : PState) (content : List Char) : PState :=
  let st0 : PState := { st with headers := [], linesText := [], translations := [] }
  parseLoop st0 none (splitNl (content.dropWhile (fun c => c.toNat = 0xfeff)))

/-! ## `LrcAligner.run`: per-line reconciliation and output assembly

The per-line loop body (lines 105–304): hallucination cleaning,
interpolation, `current_last_time` update, force calibration with overlap
pre-check and optional average distribution, the universal final hard
boundary check, line construction and translation lines.  `none` models
an uncaught exception.  The empty-reference raw-LRC fallback (lines
47–49) and the cooperative stop flag are outside every claim and not
modelled; `run` here is the aligned branch with the stop flag never
set. -/

structure RunCfg where
  timeOffset : ℚ := 0
  forceCalib : Bool := true
  avgDist : Bool := false

structure RunOut where
  outLines : List (List Char)
  lineToks : List (List UToken)
deriving DecidableEq

def processLine (cfg : RunCfg) (tsList : List ℚ) (i : Nat) (cl0 : ℚ)
    (toks0 : List UToken) (origLine : List Char) (transTexts : List (List Char)) :
    Option (List (List Char) × List UToken × ℚ) := do
  let t1 := cleanHall toks0
  let t2 := interp cl0 t1
  let validTimes := t2.filterMap (·.time)
  let cl1 := validTimes.getLast?.getD cl0
  let originalTs : ℚ := if i < tsList.length then tsList.getD i 0 else -1
  let nextLineStart : Option ℚ :=
    if i + 1 < tsList.length then
      let nt := tsList.getD (i+1) 0
      if nt > 0 then some nt else none
    else none
  let s3 ←
    if cfg.forceCalib ∧ originalTs > 0 then do
      let a ← forceCalibStep originalTs t2 cl1
      let b ← overlapCheck cfg.avgDist nextLineStart originalTs a.1 a.2.1 a.2.2
      if b.2.2 ∧ cfg.avgDist then
        pure (avgDistribute nextLineStart originalTs b.1 b.2.1)
      else pure (b.1, b.2.1)
    else pure (t2, cl1)
  let s4 := match nextLineStart with
    | some nt => hardCheckUpd nt s3.1 s3.2
    | none => s3
  let r := constructLine cfg.timeOffset 0 s4.1 origLine
  let finalTime := r.2.1.getD s4.2
  let outs := r.1 ::
    transTexts.map (fun tx => ('[' :: (formatTime finalTime cfg.timeOffset ++ [']'])) ++ tx)
  pure (outs, r.2.2, s4.2)

def runLines (cfg : RunCfg) (tsList : List ℚ) (transl : List (Nat × List Char))
    (seq : List UToken) :
    List (List Char) → Nat → ℚ → Option (List (List Char) × List (List UToken))
  | [], _, _ => some ([], [])
  | line :: rest, i, cl => do
    let toks := seq.filter (fun t => t.lineIdx = i)
    let r ← processLine cfg tsList i cl toks line
      (transl.filterMap (fun p => if p.1 = i then some p.2 else none))
    let more ← runLines cfg tsList transl seq rest (i+1) r.2.2
    pure (r.1 ++ more.1, r.2.1 :: more.2)

/-- `LrcAligner.run` on a parsed reference (`p`), a recognized word pool
and the opcodes `difflib.SequenceMatcher` produced for the two cleaned
sequences. -/
def runAligner (cfg : RunCfg) (p : PState) (aiWords : List AIWord)
    (ops : List Opcode) : Option RunOut := do
  let header := p.headers ++ (if p.headers ≠ [] then [([] : List Char)] else [])
  let ai := prepareAiSequence aiWords
  let seq := (applyOpcodes ai ops (prepareUserSequence p.linesText, 0)).1
  let r ← runLines cfg p.linesTimestamps p.translations seq p.linesText 0 0
  pure ⟨header ++ r.1, r.2⟩

/-- `"\n".join(output_lines)`. -/
def joinNl (ls : List (List Char)) : List Char :=
  (ls.intersperse ['\n']).join

/-- The final time written back to the last token of a line. -/
def lastTime (l : List UToken) : Option ℚ :=
  l.getLast?.bind (·.time)

/-! ## Concrete documents and recognition results used as test inputs

In each case the recognized text is character-for-character identical to
a prefix of the cleaned reference stream, so the opcode list of
`difflib.SequenceMatcher` is the canonical one: one `equal` block for the
common prefix and one `delete` block for the unmatched reference tail
(identical sequences always form a single maximal matching block). -/

/-- Reference `"你好\n[00:10]再见"`: first line without a time tag,
second line anchored at 10 s. -/
def exDoc1 : List Char := "你好\n[00:10]再见".toList

/-- One recognized word `你好` whose start and end are both 9.95 s, so
both derived characters get time 9.95. -/
def exAi1 : List AIWord := [⟨"你好".toList, 199/20, 199/20⟩]

/-- Opcodes for user `你,好,再,见` against AI `你,好`. -/
def exOps1 : List Opcode := [⟨OpTag.equal, 0, 2, 0, 2⟩, ⟨OpTag.delete, 2, 4, 2, 2⟩]

/-- Reference `"[00:02]你\n[00:03]好"`. -/
def exDoc5 : List Char := "[00:02]你\n[00:03]好".toList

/-- One recognized word `你` at 2 s. -/
def exAi5 : List AIWord := [⟨"你".toList, 2, 2⟩]

/-- Opcodes for user `你,好` against AI `你`. -/
def exOps5 : List Opcode := [⟨OpTag.equal, 0, 1, 0, 1⟩, ⟨OpTag.delete, 1, 2, 1, 1⟩]

/-- Reference `"[00:05]你\n[00:10]!!!"`: the second line is a lyric line
(non-empty visible text, not a credit) whose text yields no tokens. -/
def exDoc3 : List Char := "[00:05]你\n[00:10]!!!".toList

/-- Empty recognition: the single reference token is a `delete` span. -/
def exOps3 : List Opcode := [⟨OpTag.delete, 0, 1, 0, 0⟩]

/-- Reference `"你\n好"`: two untimed one-character lines. -/
def exDoc8 : List Char := "你\n好".toList

/-- One recognized word `你好` with zero duration at 5 s. -/
def exAi8 : List AIWord := [⟨"你好".toList, 5, 5⟩]

/-- Opcodes for the identical sequences `你,好` and `你,好`. -/
def exOps8 : List Opcode := [⟨OpTag.equal, 0, 2, 0, 2⟩]

/-- A minimal token for per-step tests: single character, no pre text. -/
def mkTok (t : Option ℚ) : UToken := ⟨['a'], [], t, 1, 0, ['a']⟩

/-- A line whose hole at position 1 is followed by eight more holes and a
known time 12.7, with a known time 10 before it. -/
def exToks6 : List UToken :=
  mkTok (some 10) :: List.replicate 9 (mkTok none) ++ [mkTok (some (127/10))]

/-- The double-parse input for the parser-state claim. -/
def exDoc10 : List Char := "[00:10]你好".toList

/-! ## Generic helper lemmas -/

theorem timeAt_cons_zero (t : UToken) (l : List UToken) : timeAt (t :: l) 0 = t.time := rfl

theorem timeAt_cons_succ (t : UToken) (l : List UToken) (m : Nat) :
    timeAt (t :: l) (m+1) = timeAt l m := rfl

/-- Rebuilding a token from its own time is the identity. -/
theorem utoken_eta (t : UToken) (h : t.time = some v) : { t with time := some v } = t := by
  cases t; simp_all

/-- Shape of `interp` on a cons cell: the head ends up carrying a time
`vh` (its own if it had one, the freshly interpolated value otherwise)
and the tail is interpolated with `vh` as the previous anchor. -/
theorem interp_cons (p : ℚ) (t : UToken) (rest : List UToken) :
    ∃ vh, interp p (t :: rest) = { t with time := some vh } :: interp vh rest ∧
      (t.time = some vh ∨ (t.time = none ∧ vh = interpValue p (nextStepsTime rest))) := by
  rcases ht : t.time with _ | v
  · exact ⟨interpValue p (nextStepsTime rest), by rw [interp]; simp [ht], Or.inr ⟨rfl, rfl⟩⟩
  · exact ⟨v, by rw [interp]; simp [ht, utoken_eta t ht], Or.inl rfl⟩

theorem mapIdxFrom_get? (f : Nat → α → β) :
    ∀ (l : List α) (n k : Nat), (mapIdxFrom f n l).get? k = (l.get? k).map (f (n + k))
  | [], _, _ => by simp [mapIdxFrom]
  | a :: l, n, 0 => by simp [mapIdxFrom]
  | a :: l, n, k+1 => by
    rw [mapIdxFrom]
    simpa [Nat.add_assoc, Nat.add_comm 1 k] using mapIdxFrom_get? f l (n+1) k

/-- Shifting every present time commutes with extracting the times. -/
theorem filterMap_time_map_shift (g : ℚ → ℚ) :
    ∀ (l : List UToken),
      (l.map (fun t => { t with time := t.time.map g })).filterMap (·.time) =
        (l.filterMap (·.time)).map g
  | [] => rfl
  | t :: l => by
    rcases ht : t.time with _ | v <;>
      simp [ht, List.filterMap_cons, filterMap_time_map_shift g l]

/-! ## The Formatter bumps every non-increasing time strictly past the
cursor: helper for the strict-monotonicity claim. -/

/-- Unfolding `clGo` on a cons cell: the head token is written back with
its (possibly bumped) time and the cursor advances to it. -/
theorem clGo_snd_cons (offset c : ℚ) (b : Bool) (tok : UToken) (rest : List UToken) :
    (clGo offset c b (tok :: rest)).2 =
      { tok with time := tok.time.map (fun t => if t ≤ c then c + MIN_DURATION else t) } ::
        (clGo offset ((tok.time.map (fun t => if t ≤ c then c + MIN_DURATION else t)).getD c)
          false rest).2 := rfl

theorem clGo_times_strict (offset : ℚ) :
    ∀ (toks : List UToken) (c : ℚ) (b : Bool), (∀ t ∈ toks, t.time.isSome) →
      List.Chain' (· < ·) (((clGo offset c b toks).2).filterMap (·.time)) ∧
      (∀ v, (((clGo offset c b toks).2).filterMap (·.time)).head? = some v → c < v)
  | [], c, b, _ => by constructor <;> simp [clGo]
  | tok :: rest, c, b, h => by
    obtain ⟨v, hv⟩ := Option.isSome_iff_exists.mp (h tok (List.mem_cons_self tok rest))
    set v' : ℚ := if v ≤ c then c + MIN_DURATION else v with hv'
    have hrest := clGo_times_strict offset rest v' false
      (fun t ht => h t (List.mem_cons_of_mem _ ht))
    have hcv : c < v' := by
      rw [hv']
      split
      · have : (0 : ℚ) < MIN_DURATION := by norm_num [MIN_DURATION]
        linarith
      · next hne => exact lt_of_not_le hne
    have hshape : ((clGo offset c b (tok :: rest)).2).filterMap (·.time) =
        v' :: ((clGo offset v' false rest).2).filterMap (·.time) := by
      rw [clGo_snd_cons]
      simp [hv]
    refine ⟨?_, ?_⟩
    · rw [hshape, List.chain'_cons']
      refine ⟨fun w hw => hrest.2 w ?_, hrest.1⟩
      simpa using hw
    · rw [hshape]
      intro w hw
      simp only [List.head?_cons, Option.some.injEq] at hw
      exact hw ▸ hcv

/-! ## Helper lemmas for the hard-boundary claim -/

theorem length_mapIdxFrom (f : Nat → α → β) :
    ∀ (n : Nat) (l : List α), (mapIdxFrom f n l).length = l.length
  | _, [] => rfl
  | n, a :: l => by rw [mapIdxFrom]; simp [length_mapIdxFrom f (n+1) l]

theorem mapIdxFrom_congr (f g : Nat → α → β) :
    ∀ (n : Nat) (l : List α), (∀ k a, k < l.length → f (n + k) a = g (n + k) a) →
      mapIdxFrom f n l = mapIdxFrom g n l
  | _, [], _ => rfl
  | n, a :: l, h => by
    rw [mapIdxFrom, mapIdxFrom]
    refine congrArg₂ _ (by simpa using h 0 a (by simp only [List.length_cons]; omega)) ?_
    exact mapIdxFrom_congr f g (n+1) l (fun k a hk => by
      simpa [Nat.add_assoc, Nat.add_comm 1 k] using
        h (k+1) a (by simp only [List.length_cons]; omega))

theorem filterMap_time_overwrite (g : Nat → ℚ) :
    ∀ (n : Nat) (l : List UToken),
      (mapIdxFrom (fun idx t => { t with time := some (g idx) }) n l).filterMap (·.time) =
        mapIdxFrom (fun idx _ => g idx) n l
  | _, [] => rfl
  | n, t :: l => by
    rw [mapIdxFrom, mapIdxFrom, List.filterMap_cons]
    simp [filterMap_time_overwrite g (n+1) l]

theorem overwrite_time_isSome (g : Nat → ℚ) :
    ∀ (n : Nat) (l : List UToken) (t : UToken),
      t ∈ mapIdxFrom (fun idx t => { t with time := some (g idx) }) n l → t.time.isSome
  | n, a :: l, t, h => by
    rw [mapIdxFrom] at h
    rcases List.mem_cons.mp h with h | h
    · subst h; rfl
    · exact overwrite_time_isSome g (n+1) l t h

theorem chain_overwrite_strict (g : Nat → ℚ) (hg : ∀ a b, a < b → g a < g b) :
    ∀ (n : Nat) (l : List UToken),
      List.Chain' (· < ·) (mapIdxFrom (fun idx _ => g idx) n l)
  | _, [] => List.chain'_nil
  | n, a :: l => by
    rw [mapIdxFrom, List.chain'_cons']
    refine ⟨?_, chain_overwrite_strict g hg (n+1) l⟩
    intro b hb
    cases l with
    | nil => simp [mapIdxFrom] at hb
    | cons c l' =>
      rw [mapIdxFrom] at hb
      simp only [List.head?_cons, Option.mem_def, Option.some.injEq] at hb
      exact hb ▸ hg n (n+1) (by omega)

theorem head_overwrite (g : Nat → ℚ) (n : Nat) (a : UToken) (l : List UToken) :
    (mapIdxFrom (fun idx _ => g idx) n (a :: l)).head? = some (g n) := rfl

/-- With every token timed, the head of the extracted time list is the
time at position 0. -/
theorem filterMap_time_head (toks : List UToken) (h : ∀ t ∈ toks, t.time.isSome) :
    (toks.filterMap (·.time)).head? = timeAt toks 0 := by
  cases toks with
  | nil => rfl
  | cons t rest =>
    obtain ⟨v, hv⟩ := Option.isSome_iff_exists.mp (h t (List.mem_cons_self t rest))
    simp [List.filterMap_cons, hv, timeAt]

/-- With every token timed, the last of the extracted time list is the
written-back time of the last token. -/
theorem filterMap_time_getLast (toks : List UToken) (h : ∀ t ∈ toks, t.time.isSome) :
    (toks.filterMap (·.time)).getLast? = lastTime toks := by
  induction toks with
  | nil => rfl
  | cons t rest ih =>
    obtain ⟨v, hv⟩ := Option.isSome_iff_exists.mp (h t (List.mem_cons_self t rest))
    cases rest with
    | nil => simp [List.filterMap_cons, hv, lastTime]
    | cons u rest' =>
      obtain ⟨w, hw⟩ :=
        Option.isSome_iff_exists.mp (h u (List.mem_cons_of_mem _ (List.mem_cons_self u rest')))
      have ihr := ih (fun x hx => h x (List.mem_cons_of_mem _ hx))
      calc ((t :: u :: rest').filterMap (·.time)).getLast?
          = (v :: w :: rest'.filterMap (·.time)).getLast? := by
            simp [List.filterMap_cons, hv, hw]
        _ = (w :: rest'.filterMap (·.time)).getLast? := List.getLast?_cons_cons ..
        _ = ((u :: rest').filterMap (·.time)).getLast? := by
            simp [List.filterMap_cons, hw]
        _ = lastTime (u :: rest') := ihr
        _ = lastTime (t :: u :: rest') := by
            rw [lastTime, lastTime, List.getLast?_cons_cons]

/-- With every token timed and a nonempty list, `lastSomeIdx` points at
the very last token. -/
theorem lastSomeIdx_allSome (toks : List UToken) (h : ∀ t ∈ toks, t.time.isSome) :
    ∀ (hne : toks ≠ []), ∃ v, lastSomeIdx toks = some (toks.length - 1, v) ∧
      lastTime toks = some v := by
  induction toks with
  | nil => intro hne; exact absurd rfl hne
  | cons t rest ih =>
    intro _
    obtain ⟨v, hv⟩ := Option.isSome_iff_exists.mp (h t (List.mem_cons_self t rest))
    cases rest with
    | nil => exact ⟨v, by rw [lastSomeIdx]; simp [lastSomeIdx, hv], by simp [lastTime, hv]⟩
    | cons u rest' =>
      obtain ⟨w, hw1, hw2⟩ := ih (fun x hx => h x (List.mem_cons_of_mem _ hx)) (by simp)
      refine ⟨w, ?_, ?_⟩
      · rw [lastSomeIdx, hw1]
        simp
      · rw [lastTime] at hw2 ⊢
        rwa [List.getLast?_cons_cons]

/-- With every token timed and a nonempty list, `firstSomeIdx` points at
position 0. -/
theorem firstSomeIdx_allSome (toks : List UToken) (h : ∀ t ∈ toks, t.time.isSome)
    (hne : toks ≠ []) : ∃ v, firstSomeIdx toks = some (0, v) ∧ timeAt toks 0 = some v := by
  cases toks with
  | nil => exact absurd rfl hne
  | cons t rest =>
    obtain ⟨v, hv⟩ := Option.isSome_iff_exists.mp (h t (List.mem_cons_self t rest))
    exact ⟨v, by rw [firstSomeIdx]; simp [hv], by simp [timeAt, hv]⟩

/-- The Formatter is the identity on a line whose times are all present,
strictly increasing and strictly above the initial cursor. -/
theorem clGo_id (offset : ℚ) :
    ∀ (toks : List UToken) (c : ℚ) (b : Bool), (∀ t ∈ toks, t.time.isSome) →
      List.Chain' (· < ·) (toks.filterMap (·.time)) →
      (∀ v, (toks.filterMap (·.time)).head? = some v → c < v) →
      (clGo offset c b toks).2 = toks
  | [], _, _, _, _, _ => rfl
  | tok :: rest, c, b, h, hchain, hhead => by
    obtain ⟨v, hv⟩ := Option.isSome_iff_exists.mp (h tok (List.mem_cons_self tok rest))
    have hfm : (tok :: rest).filterMap (·.time) = v :: rest.filterMap (·.time) := by
      simp [List.filterMap_cons, hv]
    have hcv : c < v := hhead v (by rw [hfm]; rfl)
    have hnb : ¬ (v ≤ c) := not_le.mpr hcv
    have hchain' := hfm ▸ hchain
    rw [List.chain'_cons'] at hchain'
    rw [clGo_snd_cons]
    simp only [hv, Option.map_some', if_neg hnb, Option.getD_some]
    rw [utoken_eta tok hv,
      clGo_id offset rest v false (fun t ht => h t (List.mem_cons_of_mem _ ht)) hchain'.2
        (fun w hw => hchain'.1 w (by simpa using hw))]

/-! ## Helper lemmas for the opcode-backfill claim -/

theorem setTokTime_length : ∀ (l : List UToken) (i : Nat) (v : ℚ),
    (setTokTime l i v).length = l.length
  | [], _, _ => rfl
  | _ :: _, 0, _ => rfl
  | t :: r, n+1, v => by rw [setTokTime]; simp [setTokTime_length r n v]

theorem setTokTime_get?_ne : ∀ (l : List UToken) (i k : Nat) (v : ℚ), k ≠ i →
    (setTokTime l i v).get? k = l.get? k
  | [], _, _, _, _ => rfl
  | t :: r, 0, 0, v, h => absurd rfl h
  | t :: r, 0, k+1, v, _ => rfl
  | t :: r, n+1, 0, v, _ => rfl
  | t :: r, n+1, k+1, v, h => by
    rw [setTokTime]
    simpa using setTokTime_get?_ne r n k v (by omega)

theorem setTokTime_get?_self : ∀ (l : List UToken) (i : Nat) (v : ℚ),
    (setTokTime l i v).get? i = (l.get? i).map (fun t => { t with time := some v })
  | [], _, _ => rfl
  | t :: r, 0, v => rfl
  | t :: r, n+1, v => by
    rw [setTokTime]
    simpa using setTokTime_get?_self r n v

theorem le_chainVal (ai : List AIChar) (j : Nat) (last : ℚ) :
    ∀ d, last ≤ chainVal ai j last d
  | 0 => le_max_right _ _
  | d+1 => le_trans (le_chainVal ai j last d) (le_max_right _ _)

theorem chainVal_le_succ (ai : List AIChar) (j : Nat) (last : ℚ) (d : Nat) :
    chainVal ai j last d ≤ chainVal ai j last (d+1) := le_max_right _ _

theorem chainVal_shift (ai : List AIChar) (j : Nat) (last : ℚ) :
    ∀ d, chainVal ai (j+1) (max (aiStartD ai j) last) d = chainVal ai j last (d+1)
  | 0 => by rw [chainVal, chainVal, chainVal]
  | d+1 => by
    rw [chainVal, chainVal_shift ai j last d]
    rw [show j + 1 + d + 1 = j + (d+1) + 1 by omega]
    rfl

theorem assignEqual_fst_length (ai : List AIChar) : ∀ (n i j : Nat) (us : List UToken) (last : ℚ),
    (assignEqual ai n i j (us, last)).1.length = us.length
  | 0, _, _, _, _ => rfl
  | n+1, i, j, us, last => by
    rw [assignEqual]
    rw [assignEqual_fst_length ai n (i+1) (j+1) _ _, setTokTime_length]

theorem assignEqual_get?_below (ai : List AIChar) :
    ∀ (n i j : Nat) (us : List UToken) (last : ℚ) (k : Nat), k < i →
      (assignEqual ai n i j (us, last)).1.get? k = us.get? k
  | 0, _, _, _, _, _, _ => rfl
  | n+1, i, j, us, last, k, hk => by
    rw [assignEqual]
    rw [assignEqual_get?_below ai n (i+1) (j+1) _ _ k (by omega)]
    exact setTokTime_get?_ne us i k _ (by omega)

theorem assignEqual_get?_above (ai : List AIChar) :
    ∀ (n i j : Nat) (us : List UToken) (last : ℚ) (k : Nat), i + n ≤ k →
      (assignEqual ai n i j (us, last)).1.get? k = us.get? k
  | 0, _, _, _, _, _, _ => rfl
  | n+1, i, j, us, last, k, hk => by
    rw [assignEqual]
    rw [assignEqual_get?_above ai n (i+1) (j+1) _ _ k (by omega)]
    exact setTokTime_get?_ne us i k _ (by omega)

theorem assignEqual_get?_in (ai : List AIChar) :
    ∀ (n i j : Nat) (us : List UToken) (last : ℚ) (d : Nat), d < n →
      (assignEqual ai n i j (us, last)).1.get? (i + d) =
        (us.get? (i + d)).map (fun t => { t with time := some (chainVal ai j last d) })
  | n+1, i, j, us, last, 0, _ => by
    rw [assignEqual]
    simp only [Nat.add_zero]
    rw [assignEqual_get?_below ai n (i+1) (j+1) _ _ i (by omega)]
    simpa [chainVal] using setTokTime_get?_self us i _
  | n+1, i, j, us, last, d+1, hd => by
    rw [assignEqual]
    have ih := assignEqual_get?_in ai n (i+1) (j+1) (setTokTime us i (max (aiStartD ai j) last))
      (max (aiStartD ai j) last) d (by omega)
    rw [show i + (d+1) = i + 1 + d by omega, ih,
      setTokTime_get?_ne us i (i+1+d) _ (by omega), chainVal_shift]

theorem assignEqual_snd (ai : List AIChar) : ∀ (n i j : Nat) (us : List UToken) (last : ℚ),
    (assignEqual ai (n+1) i j (us, last)).2 = chainVal ai j last n
  | 0, i, j, us, last => by rw [assignEqual, assignEqual, chainVal]
  | n+1, i, j, us, last => by
    rw [assignEqual]
    rw [assignEqual_snd ai n (i+1) (j+1) _ _, chainVal_shift]

theorem take_eq_take_of_get? (l1 l2 : List α) (m : Nat)
    (h : ∀ k, k < m → l1.get? k = l2.get? k) : l1.take m = l2.take m := by
  apply List.ext_get?
  intro n
  by_cases hn : n < m
  · rw [List.get?_take hn, List.get?_take hn, h n hn]
  · rw [List.get?_eq_none.mpr (le_trans (List.length_take_le _ _) (by omega)),
      List.get?_eq_none.mpr (le_trans (List.length_take_le _ _) (by omega))]

theorem times_eq_times_take (l : List UToken) (m : Nat)
    (h : ∀ k, m ≤ k → timeAt l k = none) : times l = times (l.take m) := by
  conv_lhs => rw [← List.take_append_drop m l]
  rw [times, times, List.filterMap_append]
  suffices hnil : (l.drop m).filterMap (·.time) = [] by rw [hnil, List.append_nil]
  rw [List.filterMap_eq_nil]
  intro t ht
  obtain ⟨k, hk⟩ := List.mem_iff_get?.mp ht
  have hcontra := h (m + k) (by omega)
  rw [timeAt, ← List.get?_drop, hk] at hcontra
  simpa using hcontra

theorem times_setTokTime : ∀ (l : List UToken) (i : Nat) (v : ℚ), i < l.length →
    (∀ k, i ≤ k → timeAt l k = none) → times (setTokTime l i v) = times l ++ [v]
  | [], i, v, h, _ => by simp at h
  | t :: r, 0, v, _, hnone => by
    have ht : t.time = none := by simpa [timeAt] using hnone 0 (le_refl 0)
    have hr : times r = [] := by
      rw [times, List.filterMap_eq_nil]
      intro x hx
      obtain ⟨k, hk⟩ := List.mem_iff_get?.mp hx
      have hcontra := hnone (k+1) (by omega)
      rw [timeAt, List.get?_cons_succ, hk] at hcontra
      simpa using hcontra
    rw [setTokTime]
    rw [times] at hr
    simp [times, List.filterMap_cons, ht, hr]
  | t :: r, i+1, v, hlen, hnone => by
    rw [setTokTime]
    have ih := times_setTokTime r i v (by simpa using hlen) (fun k hk => by
      simpa [timeAt] using hnone (k+1) (by omega))
    rcases hs : t.time with _ | w
    · simpa [times, List.filterMap_cons, hs] using ih
    · simp [times, List.filterMap_cons, hs] at ih ⊢
      rw [ih]

theorem latestBefore_succ (l : List UToken) (m : Nat) (v : ℚ) (h : timeAt l m = some v) :
    latestBefore l (m+1) = v := by
  obtain ⟨tok, htok, htv⟩ : ∃ tok, l.get? m = some tok ∧ tok.time = some v := by
    rw [timeAt] at h
    cases hg : l.get? m with
    | none => rw [hg] at h; simp at h
    | some tok => rw [hg] at h; exact ⟨tok, rfl, by simpa using h⟩
  rw [List.get?_eq_getElem?] at htok
  rw [latestBefore, List.take_succ, htok]
  rw [List.filterMap_append]
  simp [htv]

theorem applyOpcodes_length (ai : List AIChar) :
    ∀ (ops : List Opcode) (st : List UToken × ℚ),
      (applyOpcodes ai ops st).1.length = st.1.length
  | [], _ => rfl
  | op :: rest, st => by
    rw [applyOpcodes]
    rw [applyOpcodes_length ai rest _]
    by_cases h : op.tag = OpTag.equal
    · rw [if_pos h]
      obtain ⟨us, last⟩ := st
      exact assignEqual_fst_length ai _ _ _ _ _
    · rw [if_neg h]

theorem applyOpcodes_get?_below (ai : List AIChar) (ulen alen : Nat) :
    ∀ (ops : List Opcode) (st : List UToken × ℚ) (cur k : Nat),
      OpsWF ulen alen cur ops → k < cur →
      (applyOpcodes ai ops st).1.get? k = st.1.get? k
  | [], _, _, _, _, _ => rfl
  | op :: rest, st, cur, k, hwf, hk => by
    obtain ⟨hi1, hle, hi2, _, hwfr⟩ := hwf
    rw [applyOpcodes]
    rw [applyOpcodes_get?_below ai ulen alen rest _ op.i2 k hwfr (by omega)]
    by_cases h : op.tag = OpTag.equal
    · rw [if_pos h]
      obtain ⟨us, last⟩ := st
      exact assignEqual_get?_below ai _ _ _ _ _ k (by omega)
    · rw [if_neg h]

theorem inEqualSpan_lower (ulen alen : Nat) :
    ∀ (ops : List Opcode) (cur k : Nat), OpsWF ulen alen cur ops →
      inEqualSpan ops k = true → cur ≤ k
  | [], cur, k, _, h => by simp [inEqualSpan] at h
  | op :: rest, cur, k, hwf, h => by
    obtain ⟨hi1, hle, hi2, _, hwfr⟩ := hwf
    rw [inEqualSpan] at h
    simp only [List.any_cons, Bool.or_eq_true] at h
    rcases h with h | h
    · obtain ⟨_, h2, _⟩ := of_decide_eq_true h
      omega
    · have := inEqualSpan_lower ulen alen rest op.i2 k hwfr h
      omega

theorem assignEqual_glob (ai : List AIChar) :
    ∀ (n i j : Nat) (us : List UToken) (last : ℚ),
      i + n ≤ us.length →
      (∀ k, i ≤ k → timeAt us k = none) →
      (times us).Pairwise (· ≤ ·) →
      (∀ v ∈ times us, v ≤ last) →
      (times us).getLast?.getD 0 = last →
      (times (assignEqual ai n i j (us, last)).1).Pairwise (· ≤ ·) ∧
      (∀ v ∈ times (assignEqual ai n i j (us, last)).1,
        v ≤ (assignEqual ai n i j (us, last)).2) ∧
      (times (assignEqual ai n i j (us, last)).1).getLast?.getD 0 =
        (assignEqual ai n i j (us, last)).2
  | 0, i, j, us, last, _, _, hpw, hub, hlb => ⟨hpw, hub, hlb⟩
  | n+1, i, j, us, last, hlen, hnone, hpw, hub, hlb => by
    rw [assignEqual]
    have hts : times (setTokTime us i (max (aiStartD ai j) last)) =
        times us ++ [max (aiStartD ai j) last] :=
      times_setTokTime us i _ (by omega) hnone
    have hlast_le : last ≤ max (aiStartD ai j) last := le_max_right _ _
    refine assignEqual_glob ai n (i+1) (j+1) _ _ ?_ ?_ ?_ ?_ ?_
    · rw [setTokTime_length]
      omega
    · intro k hk
      rw [timeAt, setTokTime_get?_ne us i k _ (by omega)]
      exact hnone k (by omega)
    · rw [hts, List.pairwise_append]
      refine ⟨hpw, List.pairwise_singleton _ _, fun a ha b hb => ?_⟩
      simp only [List.mem_singleton] at hb
      subst hb
      exact le_trans (hub a ha) hlast_le
    · rw [hts]
      intro v hv
      rcases List.mem_append.mp hv with hv | hv
      · exact le_trans (hub v hv) hlast_le
      · simp only [List.mem_singleton] at hv
        subst hv
        exact le_refl _
    · rw [hts, List.getLast?_concat]
      rfl

/-- Main invariant of the opcode backfill loop, by induction over the
opcode list: positions ≥ `cur` are assigned exactly inside `equal`
spans, all assigned times are non-decreasing in token order, and every
`equal`-span position carries its matched AI start clamped from below by
the latest previously assigned time. -/
theorem applyOpcodes_main (ai : List AIChar) :
    ∀ (ops : List Opcode) (us : List UToken) (last : ℚ) (cur : Nat),
      OpsWF us.length ai.length cur ops →
      (∀ k, cur ≤ k → timeAt us k = none) →
      (times us).getLast?.getD 0 = last →
      (times us).Pairwise (· ≤ ·) →
      (∀ v ∈ times us, v ≤ last) →
      (∀ k, cur ≤ k →
        ((timeAt (applyOpcodes ai ops (us, last)).1 k).isSome ↔ inEqualSpan ops k = true)) ∧
      (times (applyOpcodes ai ops (us, last)).1).Pairwise (· ≤ ·) ∧
      (∀ op ∈ ops, op.tag = OpTag.equal → ∀ d, d < op.i2 - op.i1 →
        timeAt (applyOpcodes ai ops (us, last)).1 (op.i1 + d) =
          some (max (aiStartD ai (op.j1 + d))
            (latestBefore (applyOpcodes ai ops (us, last)).1 (op.i1 + d))))
  | [], us, last, cur, hwf, hnone, hlb, hpw, hub => by
    refine ⟨?_, hpw, by simp⟩
    intro k hk
    show (timeAt us k).isSome ↔ _
    rw [hnone k hk]
    simp [inEqualSpan]
  | op :: rest, us, last, cur, hwf, hnone, hlb, hpw, hub => by
    obtain ⟨hi1, hle, hi2, _, hwfr⟩ := hwf
    by_cases htag : op.tag = OpTag.equal
    · -- an `equal` opcode: assign the span, then recurse
      have happ : applyOpcodes ai (op :: rest) (us, last) =
          applyOpcodes ai rest (assignEqual ai (op.i2 - op.i1) op.i1 op.j1 (us, last)) := by
        rw [applyOpcodes, if_pos htag]
      have hA1len : (assignEqual ai (op.i2 - op.i1) op.i1 op.j1 (us, last)).1.length =
          us.length := assignEqual_fst_length ai _ _ _ _ _
      have hnone' : ∀ k, op.i2 ≤ k →
          timeAt (assignEqual ai (op.i2 - op.i1) op.i1 op.j1 (us, last)).1 k = none := by
        intro k hk
        rw [timeAt, assignEqual_get?_above ai _ op.i1 op.j1 us last k (by omega)]
        exact hnone k (by omega)
      have hglob := assignEqual_glob ai (op.i2 - op.i1) op.i1 op.j1 us last (by omega)
        (fun k hk => hnone k (by omega)) hpw hub hlb
      have ih := applyOpcodes_main ai rest
        (assignEqual ai (op.i2 - op.i1) op.i1 op.j1 (us, last)).1
        (assignEqual ai (op.i2 - op.i1) op.i1 op.j1 (us, last)).2 op.i2
        (hA1len.symm ▸ hwfr) hnone' hglob.2.2 hglob.1 hglob.2.1
      simp only [Prod.mk.eta] at ih
      have hframe : ∀ k, k < op.i2 →
          (applyOpcodes ai rest (assignEqual ai (op.i2 - op.i1) op.i1 op.j1 (us, last))).1.get?
            k = (assignEqual ai (op.i2 - op.i1) op.i1 op.j1 (us, last)).1.get? k := by
        intro k hk
        exact applyOpcodes_get?_below ai us.length ai.length rest _ op.i2 k hwfr hk
      have hspan : ∀ d, d < op.i2 - op.i1 →
          timeAt (applyOpcodes ai rest
            (assignEqual ai (op.i2 - op.i1) op.i1 op.j1 (us, last))).1 (op.i1 + d) =
            some (chainVal ai op.j1 last d) := by
        intro d hd
        rw [timeAt, hframe (op.i1 + d) (by omega),
          assignEqual_get?_in ai _ op.i1 op.j1 us last d hd]
        cases hu : us.get? (op.i1 + d) with
        | none =>
          have := List.get?_eq_none.mp hu
          omega
        | some tok => simp
      rw [happ]
      refine ⟨?_, ih.2.1, ?_⟩
      · intro k hk
        by_cases hki : op.i2 ≤ k
        · rw [ih.1 k hki, inEqualSpan, inEqualSpan]
          simp only [List.any_cons, Bool.or_eq_true]
          constructor
          · exact Or.inr
          · rintro (h | h)
            · obtain ⟨_, _, h3⟩ := of_decide_eq_true h
              omega
            · exact h
        · push_neg at hki
          rw [show k = op.i1 + (k - op.i1) by omega, hspan (k - op.i1) (by omega)]
          rw [inEqualSpan]
          simp only [List.any_cons, Bool.or_eq_true]
          constructor
          · intro _
            exact Or.inl (decide_eq_true ⟨htag, by omega, by omega⟩)
          · intro _
            rfl
      · have hval : ∀ d, d < op.i2 - op.i1 →
            timeAt (applyOpcodes ai rest
              (assignEqual ai (op.i2 - op.i1) op.i1 op.j1 (us, last))).1 (op.i1 + d) =
              some (max (aiStartD ai (op.j1 + d))
                (latestBefore (applyOpcodes ai rest
                  (assignEqual ai (op.i2 - op.i1) op.i1 op.j1 (us, last))).1 (op.i1 + d))) := by
          intro d hd
          rw [hspan d hd]
          match d with
          | 0 =>
            have htake : (applyOpcodes ai rest
                (assignEqual ai (op.i2 - op.i1) op.i1 op.j1 (us, last))).1.take op.i1 =
                us.take op.i1 := by
              apply take_eq_take_of_get?
              intro k hk
              rw [hframe k (by omega),
                assignEqual_get?_below ai _ op.i1 op.j1 us last k (by omega)]
            have hlbv : latestBefore (applyOpcodes ai rest
                (assignEqual ai (op.i2 - op.i1) op.i1 op.j1 (us, last))).1 op.i1 = last := by
              rw [latestBefore, htake]
              have := times_eq_times_take us op.i1 (fun k hk => hnone k (by omega))
              rw [times, times] at this
              rw [← this, ← times, hlb]
            rw [Nat.add_zero, Nat.add_zero, hlbv, chainVal]
          | d' + 1 =>
            have hlbv : latestBefore (applyOpcodes ai rest
                (assignEqual ai (op.i2 - op.i1) op.i1 op.j1 (us, last))).1
                  (op.i1 + (d' + 1)) = chainVal ai op.j1 last d' := by
              rw [show op.i1 + (d' + 1) = (op.i1 + d') + 1 by omega]
              exact latestBefore_succ _ _ _ (hspan d' (by omega))
            rw [hlbv, chainVal, Nat.add_assoc]
        intro op' hop' htag' d hd
        rcases List.mem_cons.mp hop' with heq | hop'
        · subst heq
          exact hval d hd
        · exact ih.2.2 op' hop' htag' d hd
    · -- not an `equal` opcode: the state is untouched
      have happ : applyOpcodes ai (op :: rest) (us, last) =
          applyOpcodes ai rest (us, last) := by
        rw [applyOpcodes, if_neg htag]
      have ih := applyOpcodes_main ai rest us last op.i2 hwfr
        (fun k hk => hnone k (by omega)) hlb hpw hub
      rw [happ]
      refine ⟨?_, ih.2.1, ?_⟩
      · intro k hk
        by_cases hki : op.i2 ≤ k
        · rw [ih.1 k hki, inEqualSpan, inEqualSpan]
          simp only [List.any_cons, Bool.or_eq_true]
          constructor
          · exact Or.inr
          · rintro (h | h)
            · obtain ⟨h1, _, _⟩ := of_decide_eq_true h
              exact absurd h1 htag
            · exact h
        · push_neg at hki
          have hfr := applyOpcodes_get?_below ai us.length ai.length rest (us, last) op.i2 k
            hwfr hki
          rw [timeAt, hfr]
          have : (us.get? k).bind (·.time) = none := hnone k hk
          rw [this]
          simp only [Option.isSome_none, Bool.false_eq_true, false_iff]
          intro hin
          rw [inEqualSpan] at hin
          simp only [List.any_cons, Bool.or_eq_true] at hin
          rcases hin with hin | hin
          · obtain ⟨h1, _, _⟩ := of_decide_eq_true hin
            exact absurd h1 htag
          · exact absurd (inEqualSpan_lower us.length ai.length rest op.i2 k hwfr hin)
              (by omega)
      · intro op' hop' htag' d hd
        rcases List.mem_cons.mp hop' with rfl | hop'
        · exact absurd htag' htag
        · exact ih.2.2 op' hop' htag' d hd

/-- `constructLine` leaves the tokens untouched when their times are all
present, strictly increasing and strictly above the initial cursor. -/
theorem constructLine_id_of (offset lv : ℚ) (toks : List UToken) (orig : List Char)
    (hne : toks ≠ []) (hsome : ∀ t ∈ toks, t.time.isSome)
    (hchain : List.Chain' (· < ·) (toks.filterMap (·.time)))
    (hhead : ∀ v, (toks.filterMap (·.time)).head? = some v → lv < v) :
    (constructLine offset lv toks orig).2.2 = toks := by
  cases toks with
  | nil => exact absurd rfl hne
  | cons t rest =>
    show (clGo offset lv true (t :: rest)).2 = _
    exact clGo_id offset (t :: rest) lv true hsome hchain hhead

/-- The written-back time of the last token after a whole-line uniform
respacing. -/
theorem lastTime_overwrite (g : Nat → ℚ) :
    ∀ (n : Nat) (l : List UToken), l ≠ [] →
      lastTime (mapIdxFrom (fun idx t => { t with time := some (g idx) }) n l) =
        some (g (n + (l.length - 1)))
  | n, [t], _ => by simp [mapIdxFrom, lastTime]
  | n, t :: u :: l', _ => by
    rw [mapIdxFrom]
    have ih := lastTime_overwrite g (n+1) (u :: l') (by simp)
    rw [lastTime] at ih ⊢
    rw [mapIdxFrom] at ih ⊢
    rw [List.getLast?_cons_cons, ih]
    simp only [List.length_cons, Option.some.injEq]
    congr 1
    omega

/-! # Theorems -/

set_option maxRecDepth 40000
attribute [local semireducible] Rat.add Rat.sub Rat.mul Rat.inv Rat.ofScientific

/-- Claim C1, counterexample.  On the document `"你好\n[00:10]再见"` with
both characters of the first line recognized at exactly 9.95 s
(= 10 − 0.05, the hard limit), the final hard boundary pass leaves the
line alone (9.95 is not *strictly* past the limit), and the Formatter
then bumps the second, equal time to 9.95 + 0.06 = 10.01, **past** the
next line's original timestamp minus 0.05 s (and past the anchor
itself).  So the finalized last-token time of a line with a known
next-line anchor can exceed `next − 0.05`. -/
theorem c1_counterexample :
    (runAligner {} (parse initPState exDoc1) exAi1 exOps1).map
        (fun ro => lastTime (ro.lineToks.getD 0 [])) = some (some (1001/100)) ∧
    (parse initPState exDoc1).linesTimestamps.getD 1 0 = 10 ∧
    ¬ ((1001/100 : ℚ) ≤ 10 - 1/20) := by decide

/-- Claim C3: the code crashes where the claim says it must not.  On
`"[00:05]你\n[00:10]!!!"` with an empty recognition result, the second
line has a known original timestamp (10 s) and its text `!!!` yields zero
tokens; with force calibration enabled the calibration step evaluates
`line_tokens[-1]` on the empty list (lrc_aligner.py line 138) and raises
`IndexError` — modelled as `none`.  The isolated step also returns
`none` on the empty list. -/
theorem c3_code_bug :
    runAligner {} (parse initPState exDoc3) [] exOps3 = none ∧
    (parse initPState exDoc3).linesText.length = 2 ∧
    (parse initPState exDoc3).linesTimestamps.getD 1 0 = 10 ∧
    forceCalibStep 10 [] 0 = none := by decide

/-- Claim C5, counterexample.  On `"[00:02]你\n[00:03]好"` with only `你`
recognized (at 2 s), the line `好` produced zero matched times from
sequence alignment and has the known original timestamp 3 s, yet its
(single, also first) token is finalized at 2.25 s — interpolated from the
previous line's cursor and left there because |2.25 − 3| ≤ 1.5 — not at
the original timestamp 3 s that the claim promises for zero-matched
lines. -/
theorem c5_counterexample :
    (runAligner {} (parse initPState exDoc5) exAi5 exOps5).map
        (fun ro => timeAt (ro.lineToks.getD 1 []) 0) = some (some (9/4)) ∧
    (parse initPState exDoc5).linesTimestamps.getD 1 0 = 3 ∧
    (9/4 : ℚ) ≠ 3 := by decide

/-- Claim C6, counterexample.  A hole whose previous anchor is 10 and
whose next anchor is 12.7 with 8 further holes in between has an
anchor gap of 2.7 > 2.5 s, so the claim says its time is the
back-calculation `next − 0.3·(steps+1) = 12.7 − 9·0.3 = 10`; the code
additionally clamps from below by `prev + 0.1` and assigns 10.1. -/
theorem c6_counterexample :
    timeAt (interp 0 exToks6) 1 = some (101/10) ∧
    (101/10 : ℚ) ≠ 127/10 - ((8 : ℚ) + 1) * (3/10) := by decide

/-- Claim C7: the code contradicts its own documentation.  The docstring
of `parse_time_tag` says it parses `[mm:ss:xx]`, and the parser's
`time_tag_pattern` accepts the colon sub-second separator, but
`parse_time_tag` splits the tag on `':'` and rejects any tag that does
not split into exactly two parts, so `[01:23:456]` yields the failure
value −1 (hence the *unknown* sentinel −0.001 s in the parser) instead of
83.456 s, while the dot form parses fine. -/
theorem c7_code_bug :
    parse_time_tag "[01:23:456]".toList = -1 ∧
    parse_time_tag "[01:23.456]".toList = 83456 ∧
    parse_time_tag "[01:23]".toList = 83000 ∧
    (parse initPState "[01:23:456]abc".toList).linesTimestamps =
      [(-1 : ℚ)/1000] := by decide

/-- Claim C8: round-trip failure.  On the reference `"你\n好"` with the
word `你好` recognized with zero duration at 5 s, both lines are
finalized with the textually identical leading tag `[00:05.000]` (the
Formatter's monotonic cursor is reset per line, so the second line's time
is not bumped).  Reparsing the Formatter's output therefore absorbs the
second lyric line as a *translation* of the first: the reparse yields the
single clean line `你` where the original reference parses to `你`,`好`. -/
theorem c8_code_bug :
    (runAligner {} (parse initPState exDoc8) exAi8 exOps8).map
        (fun ro => (parse initPState (joinNl ro.outLines)).linesText) =
      some ["你".toList] ∧
    (parse initPState exDoc8).linesText = ["你".toList, "好".toList] ∧
    (runAligner {} (parse initPState exDoc8) exAi8 exOps8).map
        (fun ro => (parse initPState (joinNl ro.outLines)).translations) =
      some [(0, "好".toList)] := by
  have h : runAligner {} (parse initPState exDoc8) exAi8 exOps8 =
      some ⟨["[00:05.000]你".toList, "[00:05.000]好".toList],
            [[⟨['你'], [], some 5, 1, 0, ['你']⟩], [⟨['好'], [], some 5, 1, 1, ['好']⟩]]⟩ := by
    decide
  refine ⟨?_, ?_, ?_⟩
  · rw [h]; decide
  · decide
  · rw [h]; decide

/-- Claim C1 (amended): the finalized last-token bound holds for every
line that reaches the final hard boundary pass with all of its times
assigned, strictly increasing and positive, and its first time at most
`next − 0.15` — then the pass leaves it within the bound or compresses it
uniformly below `next − 0.05`, the Formatter performs no bump, and the
finalized last-token time is at most `next − 0.05`.  (Without the
strict-monotonicity and head-room hypotheses the Formatter's bump can
push the last token past the bound: see the counterexample.) -/
theorem c1_hard_boundary_amended (offset cl next : ℚ) (toks : List UToken) (orig : List Char)
    (hne : toks ≠ [])
    (hsome : ∀ t ∈ toks, t.time.isSome)
    (hchain : List.Chain' (· < ·) (toks.filterMap (·.time)))
    (hpos : ∀ v, (toks.filterMap (·.time)).head? = some v → 0 < v)
    (hbound : ∀ v, (toks.filterMap (·.time)).head? = some v → v ≤ next - 3/20) :
    ∀ w, lastTime ((constructLine offset 0 (hardCheckUpd next toks cl).1 orig).2.2) = some w →
      w ≤ next - 1/20 := by
  obtain ⟨tl, hlastIdx, hlastTime⟩ := lastSomeIdx_allSome toks hsome hne
  obtain ⟨t0, hfirstIdx, hfirstTime⟩ := firstSomeIdx_allSome toks hsome hne
  have hlen : 0 < toks.length := List.length_pos.mpr hne
  have hheadfm : (toks.filterMap (·.time)).head? = some t0 := by
    rw [filterMap_time_head toks hsome, hfirstTime]
  have ht0pos : 0 < t0 := hpos t0 hheadfm
  have ht0b : t0 ≤ next - 3/20 := hbound t0 hheadfm
  have ht0lt : t0 < next - 1/20 := lt_of_le_of_lt ht0b (by linarith)
  by_cases hcase : tl > next - 1/20
  · -- compression branch
    have hd : (1:ℚ)/10 ≤ next - 1/20 - t0 := by linarith
    have hstep : 0 < (next - 1/20 - t0) / (toks.length : ℚ) :=
      div_pos (by linarith) (by exact_mod_cast hlen)
    have hcount : toks.length - 1 - 0 + 1 = toks.length := by omega
    have hhc : (hardCheckUpd next toks cl).1 =
        mapIdxFrom (fun idx t => { t with time := some (t0 + (idx : ℚ) * ((next - 1/20 - t0) / (toks.length : ℚ))) }) 0 toks := by
      simp only [hardCheckUpd, hlastIdx, hfirstIdx]
      rw [if_pos hcase]
      simp only [Option.getD_some, if_neg (not_le.mpr ht0lt), if_neg (not_lt.mpr hd), hcount]
      refine mapIdxFrom_congr _ _ 0 toks ?_
      intro k a hk
      rw [if_pos]
      · simp
      · omega
    set g : Nat → ℚ := fun idx => t0 + (idx : ℚ) * ((next - 1/20 - t0) / (toks.length : ℚ))
      with hg
    have hmono : ∀ a b : Nat, a < b → g a < g b := by
      intro a b hab
      rw [hg]
      have : (a : ℚ) < (b : ℚ) := by exact_mod_cast hab
      have := mul_lt_mul_of_pos_right this hstep
      simpa using by linarith
    have hsome3 := overwrite_time_isSome g 0 toks
    have hfm3 : ((mapIdxFrom (fun idx t => { t with time := some (g idx) }) 0 toks).filterMap
        (·.time)) = mapIdxFrom (fun idx _ => g idx) 0 toks := filterMap_time_overwrite g 0 toks
    have hchain3 : List.Chain' (· < ·)
        ((mapIdxFrom (fun idx t => { t with time := some (g idx) }) 0 toks).filterMap
          (·.time)) := by
      rw [hfm3]; exact chain_overwrite_strict g hmono 0 toks
    have hhead3 : ∀ v, ((mapIdxFrom (fun idx t => { t with time := some (g idx) }) 0
        toks).filterMap (·.time)).head? = some v → 0 < v := by
      rw [hfm3]
      cases toks with
      | nil => exact absurd rfl hne
      | cons a l =>
        rw [head_overwrite]
        intro v hv
        simp only [Option.some.injEq] at hv
        rw [← hv, hg]
        simpa using ht0pos
    rw [hhc]
    intro w hw
    have hne3 : mapIdxFrom (fun idx t => { t with time := some (g idx) }) 0 toks ≠ [] := by
      intro hcontra
      have := length_mapIdxFrom (fun idx t => { t with time := some (g idx) }) 0 toks
      rw [hcontra] at this
      simp at this
      omega
    rw [constructLine_id_of offset 0 _ orig hne3 hsome3 hchain3 hhead3] at hw
    rw [lastTime_overwrite g 0 toks hne] at hw
    simp only [Nat.zero_add, Option.some.injEq] at hw
    subst hw
    -- arithmetic: g (len − 1) ≤ next − 1/20
    simp only [hg]
    have hlen' : 1 ≤ toks.length := hlen
    have hcast : ((toks.length - 1 : Nat) : ℚ) = ((toks.length : ℚ)) - 1 := by
      push_cast [Nat.cast_sub hlen']
      ring
    rw [hcast]
    set n : ℚ := (toks.length : ℚ) with hn
    have hnpos : 0 < n := by rw [hn]; exact_mod_cast hlen
    set d : ℚ := next - 1/20 - t0 with hdd
    have key : (n - 1) * (d / n) = d - d / n := by
      field_simp
      ring
    have hdiv : 0 ≤ d / n := le_of_lt (div_pos (lt_of_lt_of_le (by norm_num) hd) hnpos)
    linarith [key, hdiv]
  · -- the line already respects the bound; the pass and the Formatter
    -- leave it unchanged
    have hhc : (hardCheckUpd next toks cl).1 = toks := by
      simp only [hardCheckUpd, hlastIdx]
      rw [if_neg hcase]
    rw [hhc]
    intro w hw
    rw [constructLine_id_of offset 0 toks orig hne hsome hchain hpos] at hw
    rw [hlastTime] at hw
    simp only [Option.some.injEq] at hw
    subst hw
    exact not_lt.mp hcase

/-- Witness for C1 (amended) at a line of two strictly increasing
positive times 1 and 2.3 against a next anchor of 2.2: the pass
compresses the line and the finalized last token stays at or below
2.2 − 0.05. -/
theorem c1_hard_boundary_amended_witness :
    ([mkTok (some 1), mkTok (some (23/10))] ≠ []) ∧
    (∀ w, lastTime ((constructLine 0 0
        (hardCheckUpd (11/5) [mkTok (some 1), mkTok (some (23/10))] 0).1 ['a', 'a']).2.2) =
          some w → w ≤ 11/5 - 1/20) :=
  ⟨by decide,
   c1_hard_boundary_amended 0 0 (11/5) [mkTok (some 1), mkTok (some (23/10))] ['a', 'a']
     (by decide) (by decide)
     (by
       have hfm : ([mkTok (some 1), mkTok (some (23/10))].filterMap (·.time)) =
           [1, 23/10] := by decide
       rw [hfm]
       simp only [List.chain'_cons, List.chain'_singleton, and_true]
       norm_num)
     (by
       intro v hv
       have h1 : (([mkTok (some 1), mkTok (some (23/10))].filterMap (·.time))).head? =
           some 1 := by decide
       rw [h1] at hv
       cases hv
       norm_num)
     (by
       intro v hv
       have h1 : (([mkTok (some 1), mkTok (some (23/10))].filterMap (·.time))).head? =
           some 1 := by decide
       rw [h1] at hv
       cases hv
       norm_num)⟩

/-- Claim C2: in every finalized (formatted) line, the written-back token
times are strictly increasing: the Formatter walks the line with a
running cursor and replaces any time `t ≤ cursor` by
`cursor + MIN_DURATION` (0.06 s), so each emitted time is strictly above
the cursor, which is then advanced to it.  Stated for any token list all
of whose tokens carry a time — which holds for every line reaching the
Formatter in the pipeline, interpolation having filled every hole. -/
theorem c2_formatter_strictly_increasing (offset lastValid : ℚ) (toks : List UToken)
    (orig : List Char) (h : ∀ t ∈ toks, t.time.isSome) :
    List.Chain' (· < ·) (((constructLine offset lastValid toks orig).2.2).filterMap (·.time)) := by
  cases toks with
  | nil => simp [constructLine]
  | cons t rest => exact (clGo_times_strict offset (t :: rest) lastValid true h).1

/-- Witness for C2 at a concrete line whose two tokens carry the equal
times 1 and 1 (the second is bumped to 1.06). -/
theorem c2_formatter_strictly_increasing_witness :
    (∀ t ∈ [mkTok (some 1), mkTok (some 1)], t.time.isSome) ∧
    List.Chain' (· < ·)
      (((constructLine 0 0 [mkTok (some 1), mkTok (some 1)] ['a', 'a']).2.2).filterMap
        (·.time)) :=
  ⟨by decide,
   c2_formatter_strictly_increasing 0 0 [mkTok (some 1), mkTok (some 1)] ['a', 'a'] (by decide)⟩

/-- Claim C9: the hole-repair passes have exactly the stated frame.
`_clean_hallucinations` either leaves a token untouched or discards its
time (it never rewrites a surviving time to a different value), and
`_interpolate_timestamps` never touches a token that already carries a
time (it only fills holes). -/
theorem c9_hole_repair_frame (l : List UToken) (p : ℚ) (k : Nat) :
    ((cleanHall l).get? k = l.get? k ∨
      ∃ tok, l.get? k = some tok ∧ (cleanHall l).get? k = some { tok with time := none }) ∧
    (∀ tok, l.get? k = some tok → tok.time.isSome → (interp p l).get? k = some tok) := by
  induction l generalizing p k with
  | nil => exact ⟨Or.inl rfl, fun tok h => by simp at h⟩
  | cons t rest ih =>
    constructor
    · match k with
      | 0 =>
        show (cleanHall (t :: rest)).get? 0 = _ ∨ _
        rw [cleanHall]
        rcases ht : t.time with _ | v1
        · exact Or.inl (by simp [ht])
        · rcases hn : nextKnown rest with _ | v2
          · exact Or.inl (by simp [ht, hn])
          · by_cases hgap : v2 - v1 > 3
            · exact Or.inr ⟨t, rfl, by simp [ht, hn, hgap]⟩
            · exact Or.inl (by simp [ht, hn, hgap])
      | m + 1 =>
        rcases (ih p m).1 with h | ⟨tok, h1, h2⟩
        · exact Or.inl (by rw [cleanHall]; simpa using h)
        · exact Or.inr ⟨tok, by simpa using h1, by rw [cleanHall]; simpa using h2⟩
    · intro tok hget hsome
      rcases ht : t.time with _ | v
      · match k with
        | 0 =>
          simp only [List.get?_cons_zero, Option.some.injEq] at hget
          rw [← hget] at hsome
          simp [ht] at hsome
        | m + 1 =>
          rw [interp]
          simp only [ht]
          simpa using (ih (interpValue p (nextStepsTime rest)) m).2 tok (by simpa using hget) hsome
      · match k with
        | 0 =>
          simp only [List.get?_cons_zero, Option.some.injEq] at hget
          subst hget
          rw [interp]
          simp [ht]
        | m + 1 =>
          rw [interp]
          simp only [ht]
          simpa using (ih v m).2 tok (by simpa using hget) hsome

/-- Witness for C9 at a concrete list: position 0 survives hallucination
cleaning untouched or nulled, and its assigned time 1 survives
interpolation unchanged. -/
theorem c9_hole_repair_frame_witness :
    ((cleanHall [mkTok (some 1), mkTok none]).get? 0 = [mkTok (some 1), mkTok none].get? 0 ∨
      ∃ tok, [mkTok (some 1), mkTok none].get? 0 = some tok ∧
        (cleanHall [mkTok (some 1), mkTok none]).get? 0 = some { tok with time := none }) ∧
    (interp 0 [mkTok (some 1), mkTok none]).get? 0 = some (mkTok (some 1)) :=
  ⟨(c9_hole_repair_frame [mkTok (some 1), mkTok none] 0 0).1,
   (c9_hole_repair_frame [mkTok (some 1), mkTok none] 0 0).2 (mkTok (some 1))
     (by decide) (by decide)⟩

/-- Claim C4: after the sequence-alignment opcode loop and before any
per-line reconciliation, a reference token has an assigned time if and
only if it lies in an `equal` opcode span; the assigned times are
non-decreasing in global token order; and each assigned time equals the
matched AI character's derived start time clamped to be no earlier than
the latest time assigned so far in the whole stream (the `last` cursor
starts at 0, so the first span's first value is additionally clamped at
0 — with non-negative speech times this is the AI start itself).
`replace`, `delete` and `insert` spans assign nothing.  Hypotheses: the
prepared reference tokens start with no time, and the opcodes satisfy
the shape `difflib` guarantees (`OpsWF`). -/
theorem c4_opcode_backfill (ai : List AIChar) (ops : List Opcode) (user : List UToken)
    (h0 : ∀ t ∈ user, t.time = none)
    (hwf : OpsWF user.length ai.length 0 ops) :
    (∀ k, (timeAt (applyOpcodes ai ops (user, 0)).1 k).isSome ↔ inEqualSpan ops k = true) ∧
    List.Chain' (· ≤ ·) (times (applyOpcodes ai ops (user, 0)).1) ∧
    (∀ op ∈ ops, op.tag = OpTag.equal → ∀ d, d < op.i2 - op.i1 →
      timeAt (applyOpcodes ai ops (user, 0)).1 (op.i1 + d) =
        some (max (aiStartD ai (op.j1 + d))
          (latestBefore (applyOpcodes ai ops (user, 0)).1 (op.i1 + d)))) := by
  have htn : times user = [] := by
    rw [times, List.filterMap_eq_nil]
    exact h0
  have hmain := applyOpcodes_main ai ops user 0 0 hwf
    (fun k _ => by
      rw [timeAt]
      cases hg : user.get? k with
      | none => rfl
      | some t => simpa using h0 t (List.get?_mem hg))
    (by rw [htn]; rfl)
    (by rw [htn]; exact List.Pairwise.nil)
    (by rw [htn]; intro v hv; simp at hv)
  exact ⟨fun k => hmain.1 k (Nat.zero_le k),
    List.chain'_iff_pairwise.mpr hmain.2.1, hmain.2.2⟩

/-- Witness for C4 on a two-token reference where only the first token is
matched (`equal 0 1 / delete 1 2`): position 0 is assigned iff it lies in
the equal span. -/
theorem c4_opcode_backfill_witness :
    (∀ t ∈ [mkTok none, mkTok none], t.time = none) ∧
    ((timeAt (applyOpcodes [⟨['a'], 5⟩]
        [⟨OpTag.equal, 0, 1, 0, 1⟩, ⟨OpTag.delete, 1, 2, 1, 1⟩]
        ([mkTok none, mkTok none], 0)).1 0).isSome ↔
      inEqualSpan [⟨OpTag.equal, 0, 1, 0, 1⟩, ⟨OpTag.delete, 1, 2, 1, 1⟩] 0 = true) :=
  ⟨by decide,
   (c4_opcode_backfill [⟨['a'], 5⟩]
     [⟨OpTag.equal, 0, 1, 0, 1⟩, ⟨OpTag.delete, 1, 2, 1, 1⟩]
     [mkTok none, mkTok none] (by decide) (by simp [OpsWF])).1 0⟩

/-- Claim C5 (amended): behaviour of the force-calibration step
(`run` lines 127–159).  The step runs after interpolation, which fills
every hole, so a nonempty line that produced zero matched times from
sequence alignment reaches it with interpolated times anchored to the
previous line's cursor and is handled by the two drift cases below; the
synthesize-at-the-original-timestamp branch fires only when the step
itself sees no assigned time.  (1) If the line carries no assigned time
at all (for a nonempty token list: every time unset), every token is
synthesized at `original + k·0.25` — first token exactly at the original
timestamp, 0.25 s cadence.  (2) If the first assigned time `v0` differs
from the original timestamp by more than 1.5 s, every assigned time is
shifted by `original − v0` (holes stay holes, spacing preserved) and the
first assigned time becomes exactly the original timestamp.  (3) If
`|v0 − original| ≤ 1.5`, nothing changes. -/
theorem c5_force_calibration_amended (orig cl : ℚ) (toks : List UToken) :
    (toks ≠ [] → toks.filterMap (·.time) = [] →
      ∃ out r, forceCalibStep orig toks cl = some (out, r, true) ∧
        ∀ k, k < toks.length → timeAt out k = some (orig + (k : ℚ) * (1/4))) ∧
    (∀ v0 vr, toks.filterMap (·.time) = v0 :: vr → |v0 - orig| > 3/2 →
      ∃ out r, forceCalibStep orig toks cl = some (out, r, true) ∧
        (∀ k tok, toks.get? k = some tok →
          timeAt out k = tok.time.map (· + (orig - v0))) ∧
        (out.filterMap (·.time)).head? = some orig) ∧
    (∀ v0 vr, toks.filterMap (·.time) = v0 :: vr → |v0 - orig| ≤ 3/2 →
      forceCalibStep orig toks cl = some (toks, cl, false)) := by
  refine ⟨?_, ?_, ?_⟩
  · intro hne hempty
    match toks, hne with
    | t0 :: ts, _ =>
      have heq : ∃ r, forceCalibStep orig (t0 :: ts) cl =
          some (mapIdxFrom (fun k t => { t with time := some (orig + (k : ℚ) * (1/4)) })
            0 (t0 :: ts), r, true) := by
        rw [forceCalibStep.eq_def, hempty]
        exact ⟨_, rfl⟩
      obtain ⟨r, heq⟩ := heq
      refine ⟨_, r, heq, ?_⟩
      intro k hk
      rw [timeAt, mapIdxFrom_get?]
      cases hh : (t0 :: ts).get? k with
      | none => exact absurd (List.get?_eq_none.mp hh) (by omega)
      | some tok => simp
  · intro v0 vr hfm habs
    have heq : ∃ r, forceCalibStep orig toks cl =
        some (toks.map (fun t => { t with time := t.time.map (· + (orig - v0)) }), r, true) := by
      rw [forceCalibStep.eq_def, hfm]
      simp only [if_pos habs]
      exact ⟨_, rfl⟩
    obtain ⟨r, heq⟩ := heq
    refine ⟨_, r, heq, ?_, ?_⟩
    · intro k tok hget
      rw [timeAt, List.get?_map, hget]
      rfl
    · rw [filterMap_time_map_shift, hfm]
      simp only [List.map_cons, List.head?_cons, Option.some.injEq]
      ring
  · intro v0 vr hfm hle
    rw [forceCalibStep.eq_def, hfm]
    simp only [if_neg (not_lt.mpr hle)]

/-- Witness for C5 (amended), exercising the drift-shift case on a line
whose single assigned time 10 differs from the original timestamp 3 by
more than 1.5 s. -/
theorem c5_force_calibration_amended_witness :
    ([mkTok (some 10)].filterMap (·.time) = [(10 : ℚ)]) ∧
    (∃ out r, forceCalibStep 3 [mkTok (some 10)] 0 = some (out, r, true) ∧
      (∀ k tok, [mkTok (some 10)].get? k = some tok →
        timeAt out k = tok.time.map (· + (3 - 10))) ∧
      (out.filterMap (·.time)).head? = some 3) :=
  ⟨by decide,
   (c5_force_calibration_amended 3 0 [mkTok (some 10)]).2.1 10 [] (by decide) (by norm_num)⟩

/-- Claim C6 (amended): characterization of interpolation.  For a hole at
position `k`, let `prev` be the previous token's (possibly freshly
interpolated) time — the previous line's cursor when `k = 0` — and scan
the original suffix after `k` for the next known time and the number of
holes before it.  If a next anchor exists and `next − prev > 2.5`, the
hole gets `max (prev + 0.1) (next − 0.3·(steps+1))` — the back-calculated
right-snapping value clamped from below by `prev + 0.1`; if
`next − prev ≤ 2.5`, it gets `prev` plus the linear step
`gap/(steps+2)` clamped to `[MIN_DURATION = 0.06, 0.4]`; with no next
anchor it gets `prev + 0.25`.  (All three cases are `interpValue`; the
clamp `max (prev + 0.1) ·` in the right-snapping case is what the
original claim omits.) -/
theorem c6_interpolation_amended (prevEnd : ℚ) (l : List UToken) (k : Nat) (tok : UToken)
    (hget : l.get? k = some tok) (hnone : tok.time = none) :
    (k = 0 → timeAt (interp prevEnd l) 0 =
        some (interpValue prevEnd (nextStepsTime (l.drop 1)))) ∧
    (∀ m, k = m + 1 → ∃ pv, timeAt (interp prevEnd l) m = some pv ∧
        timeAt (interp prevEnd l) (m+1) =
          some (interpValue pv (nextStepsTime (l.drop (m+2))))) := by
  induction l generalizing prevEnd k with
  | nil => simp at hget
  | cons t rest ih =>
    obtain ⟨vh, hshape, hcase⟩ := interp_cons prevEnd t rest
    constructor
    · intro hk
      subst hk
      simp only [List.get?_cons_zero, Option.some.injEq] at hget
      subst hget
      rcases hcase with hsome | ⟨_, hval⟩
      · rw [hsome] at hnone; cases hnone
      · rw [hshape, hval]
        rfl
    · intro m hk
      subst hk
      have hget' : rest.get? m = some tok := by simpa using hget
      match m with
      | 0 =>
        have h1 := (ih vh 0 hget').1 rfl
        refine ⟨vh, ?_, ?_⟩
        · rw [hshape]; rfl
        · rw [hshape]
          simpa using h1
      | m' + 1 =>
        obtain ⟨pv, h1, h2⟩ := (ih vh (m' + 1) hget').2 m' rfl
        exact ⟨pv, by rw [hshape]; simpa using h1, by rw [hshape]; simpa using h2⟩

/-- Witness for C6 (amended) at the counterexample list: the hole at
position 1 receives `interpValue` of the previous time and the forward
scan — concretely `max (10 + 0.1) (12.7 − 9·0.3) = 10.1`. -/
theorem c6_interpolation_amended_witness :
    (∃ pv, timeAt (interp 0 exToks6) 0 = some pv ∧
      timeAt (interp 0 exToks6) 1 =
        some (interpValue pv (nextStepsTime (exToks6.drop 2)))) ∧
    timeAt (interp 0 exToks6) 1 = some (101/10) :=
  ⟨(c6_interpolation_amended 0 exToks6 1 (mkTok none) (by decide) (by decide)).2 0 rfl,
   by decide⟩

/-- Claim C10: the code violates the invariant on a second `parse` call.
`parse` re-initialises `headers`, `lines_text` and `translations` but not
`lines_timestamps`, so parsing `"[00:10]你好"` twice on the same parser
instance leaves one entry in `lines_text` and two stale-plus-fresh
entries in `lines_timestamps`. -/
theorem c10_code_bug :
    (parse (parse initPState exDoc10) exDoc10).linesText.length = 1 ∧
    (parse (parse initPState exDoc10) exDoc10).linesTimestamps.length = 2 ∧
    (parse initPState exDoc10).linesText.length = 1 ∧
    (parse initPState exDoc10).linesTimestamps.length = 1 := by decide

end AutoK
